import Mathlib

set_option linter.unusedSectionVars false

/-!
# Verification of the parallel quicksort core (`parallel_quicksort.cpp`)

Shallow embedding of `quicksort_seq` and `quicksort_parallel` from
`src/lecs/07_parallelism/parallel_quicksort.cpp`.

The C++ code sorts a `std::vector<T>` in place between inclusive `int`
indices `left` and `right`.  We model the vector as a total function
`f : ℤ → α` (index to value); an in-place `std::swap(arr[i], arr[j])`
becomes the function `swap f i j`.  Entry calls touch only indices in
`[0, n-1]`, and the theorems track which indices each operation can
change, so the values of `f` outside the window are irrelevant (and are
proved unchanged).  Elements come from a linear order `α`, matching the
code's use of `<` and `<=` on a totally ordered element type.

The recursion on `int` bounds is modelled as well-founded recursion on
the (truncated) size of the range.  The configuration constants
`SEQUENTIAL_THRESHOLD` and `MAX_DEPTH` (10000 and 4 in the source) are
taken as parameters `T D : ℕ`, matching the specification's
"non-negative integer" configuration; `depth` likewise starts at 0 and
only grows, so it is a `ℕ`.
-/

section Model

variable {α : Type} [LinearOrder α]

/-- `std::swap(arr[i], arr[j])` on the function model of the array. -/
def swap (f : ℤ → α) (i j : ℤ) : ℤ → α :=
  fun k => if k = i then f j else if k = j then f i else f k

/-- Median-of-three pivot-selection block shared by `quicksort_seq`
(lines 17-28) and `quicksort_parallel` (lines 60-71): three
compare-and-swaps on indices `left`, `mid`, `right` that leave the
chosen pivot value at index `right`. -/
def medianOfThree (f : ℤ → α) (left right : ℤ) : ℤ → α :=
  let mid := left + (right - left) / 2
  let f1 := if f mid < f left then swap f left mid else f
  let f2 := if f1 right < f1 left then swap f1 left right else f1
  if f2 mid < f2 right then swap f2 mid right else f2

/-- The partition scan `for (j = left; j < right; j++) { if (arr[j] <= pivot)
{ i++; swap(arr[i], arr[j]); } }`, started with `i = left - 1`.
Returns the array together with the final boundary index `i`. -/
def partitionLoop (f : ℤ → α) (pivot : α) (i j right : ℤ) :
    (ℤ → α) × ℤ :=
  if h : j < right then
    if f j ≤ pivot then
      partitionLoop (swap f (i + 1) j) pivot (i + 1) (j + 1) right
    else
      partitionLoop f pivot i (j + 1) right
  else
    (f, i)
termination_by (right - j).toNat
decreasing_by all_goals omega

/-- The full partition step (lines 30-39 / 73-82): read the pivot from
index `right`, run the scan, then `i++; swap(arr[i], arr[right])`.
Returns the array and the pivot's final index `i`. -/
def partitionStep (f : ℤ → α) (left right : ℤ) : (ℤ → α) × ℤ :=
  let pivot := f right
  let p := partitionLoop f pivot (left - 1) left right
  (swap p.1 (p.2 + 1) right, p.2 + 1)

/-- Index bounds for the partition scan: starting from `i < j ≤ right`,
the returned boundary satisfies `i ≤ result ∧ result < right`. -/
theorem partitionLoop_idx (pivot : α) (f : ℤ → α) (i j right : ℤ) :
    i < j → j ≤ right →
      i ≤ (partitionLoop f pivot i j right).2 ∧
      (partitionLoop f pivot i j right).2 < right := by
  induction f, pivot, i, j, right using partitionLoop.induct with
  | case1 f pivot i j right h hle ih =>
    intro hij hjr
    rw [partitionLoop, dif_pos h, if_pos hle]
    have := ih (by omega) (by omega)
    omega
  | case2 f pivot i j right h hle ih =>
    intro hij hjr
    rw [partitionLoop, dif_pos h, if_neg hle]
    have := ih (by omega) (by omega)
    omega
  | case3 f pivot i j right h =>
    intro hij hjr
    rw [partitionLoop, dif_neg h]
    omega

/-- The pivot's final index lies inside the range: `left ≤ i ≤ right`. -/
theorem partitionStep_idx (f : ℤ → α) (left right : ℤ) (h : left ≤ right) :
    left ≤ (partitionStep f left right).2 ∧
      (partitionStep f left right).2 ≤ right := by
  have := partitionLoop_idx (f right) f (left - 1) left right (by omega) h
  simp only [partitionStep]
  omega

/-- `quicksort_seq` (lines 11-44): base case `left >= right`, then
median-of-three, partition, and the two recursive calls. -/
def quicksort_seq (f : ℤ → α) (left right : ℤ) : ℤ → α :=
  if left ≥ right then f
  else
    let f1 := medianOfThree f left right
    let p := partitionStep f1 left right
    let f2 := quicksort_seq p.1 left (p.2 - 1)
    quicksort_seq f2 (p.2 + 1) right
termination_by (right - left + 1).toNat
decreasing_by
  · have := partitionStep_idx (medianOfThree f left right) left right (by omega)
    omega
  · have := partitionStep_idx (medianOfThree f left right) left right (by omega)
    omega

/-- `quicksort_parallel` (lines 47-96), sequentialised: the spawned
left-branch task and the inline right branch write to the disjoint index
ranges `[left, i-1]` and `[i+1, right]` (proved below), so running the
left branch first and the right branch on its result computes the array
state after the join barrier.  `T` is `SEQUENTIAL_THRESHOLD`, `D` is
`MAX_DEPTH`; both are the non-negative configuration integers of the
specification, and `depth` starts at 0. -/
def quicksort_parallel (T D : ℕ) (f : ℤ → α) (left right : ℤ)
    (depth : ℕ) : ℤ → α :=
  if right - left ≤ (T : ℤ) ∨ depth ≥ D then quicksort_seq f left right
  else
    let f1 := medianOfThree f left right
    let p := partitionStep f1 left right
    let f2 := quicksort_parallel T D p.1 left (p.2 - 1) (depth + 1)
    quicksort_parallel T D f2 (p.2 + 1) right (depth + 1)
termination_by (right - left + 1).toNat
decreasing_by
  · have := partitionStep_idx (medianOfThree f left right) left right (by omega)
    omega
  · have := partitionStep_idx (medianOfThree f left right) left right (by omega)
    omega

/-- View a concrete list as an array-model function (index `k` holds
`xs[k]`; out-of-window indices hold a default, and are never consulted
by an entry call). -/
def toFun [Inhabited α] (xs : List α) : ℤ → α :=
  fun k => xs.getD k.toNat default

/-- Read the first `n` cells of the array model back into a list. -/
def toList (f : ℤ → α) (n : ℕ) : List α :=
  (List.range n).map fun k : ℕ => f (k : ℤ)

/-- `g` is obtained from `f` by permuting the cells of the window
`[left, right]`: there is a permutation of the index set that fixes
every index outside the window and rearranges `f` into `g`.  This is
the in-place analogue of "the contents of `[left, right]` are a
permutation of what they were, and nothing else moved". -/
def PermOf (left right : ℤ) (f g : ℤ → α) : Prop :=
  ∃ σ : Equiv.Perm ℤ, (∀ k, k < left ∨ right < k → σ k = k) ∧ g = f ∘ σ

/-- The multiset of values stored in the window `[left, right]`. -/
def windowMS (f : ℤ → α) (left right : ℤ) : Multiset α :=
  (Finset.Icc left right).val.map f

/-- The window `[left, right]` is sorted (non-decreasing). -/
def SortedOn (f : ℤ → α) (left right : ℤ) : Prop :=
  ∀ j k, left ≤ j → j ≤ k → k ≤ right → f j ≤ f k

/-!
## Instrumentation

`spawnCount` counts the `std::async` task submissions of a
`quicksort_parallel` execution (one per taken fork branch, line 88);
`partitionLoopC`/`partitionStepC` mirror the partition step while
counting comparisons against the pivot and `std::swap` invocations;
`pivotRangesSeq`/`pivotRangesPar` record the `(left, right)` range of
every median-of-three pivot-selection block that executes.
-/

/-- Total number of tasks spawned by `quicksort_parallel`: 0 when the
call delegates to the sequential engine, otherwise 1 (the
`std::async` on line 88) plus the spawns of both recursive calls. -/
def spawnCount (T D : ℕ) (f : ℤ → α) (left right : ℤ)
    (depth : ℕ) : ℕ :=
  if right - left ≤ (T : ℤ) ∨ depth ≥ D then 0
  else
    let f1 := medianOfThree f left right
    let p := partitionStep f1 left right
    1 + spawnCount T D p.1 left (p.2 - 1) (depth + 1) +
      spawnCount T D (quicksort_parallel T D p.1 left (p.2 - 1)
        (depth + 1)) (p.2 + 1) right (depth + 1)
termination_by (right - left + 1).toNat
decreasing_by
  · have := partitionStep_idx (medianOfThree f left right) left right
      (by omega)
    omega
  · have := partitionStep_idx (medianOfThree f left right) left right
      (by omega)
    omega

/-- The partition scan instrumented with counters: `comps` counts the
`arr[j] <= pivot` comparisons, `swaps` the `std::swap` calls of the
loop body. -/
def partitionLoopC (f : ℤ → α) (pivot : α) (i j right : ℤ)
    (comps swaps : ℕ) : ((ℤ → α) × ℤ) × ℕ × ℕ :=
  if h : j < right then
    if f j ≤ pivot then
      partitionLoopC (swap f (i + 1) j) pivot (i + 1) (j + 1) right
        (comps + 1) (swaps + 1)
    else
      partitionLoopC f pivot i (j + 1) right (comps + 1) swaps
  else
    ((f, i), comps, swaps)
termination_by (right - j).toNat
decreasing_by all_goals omega

/-- The full partition step instrumented with counters; the final
`swap(arr[i], arr[right])` (line 39/82) counts as one more swap. -/
def partitionStepC (f : ℤ → α) (left right : ℤ) :
    ((ℤ → α) × ℤ) × ℕ × ℕ :=
  let pivot := f right
  let p := partitionLoopC f pivot (left - 1) left right 0 0
  ((swap p.1.1 (p.1.2 + 1) right, p.1.2 + 1), p.2.1, p.2.2 + 1)

/-- The ranges on which the sequential engine runs its median-of-three
pivot-selection block, in execution order. -/
def pivotRangesSeq (f : ℤ → α) (left right : ℤ) : List (ℤ × ℤ) :=
  if left ≥ right then []
  else
    let f1 := medianOfThree f left right
    let p := partitionStep f1 left right
    (left, right) ::
      (pivotRangesSeq p.1 left (p.2 - 1) ++
        pivotRangesSeq (quicksort_seq p.1 left (p.2 - 1)) (p.2 + 1)
          right)
termination_by (right - left + 1).toNat
decreasing_by
  · have := partitionStep_idx (medianOfThree f left right) left right
      (by omega)
    omega
  · have := partitionStep_idx (medianOfThree f left right) left right
      (by omega)
    omega

/-- The ranges on which the parallel coordinator (and the sequential
engine it delegates to) runs median-of-three pivot selection. -/
def pivotRangesPar (T D : ℕ) (f : ℤ → α) (left right : ℤ)
    (depth : ℕ) : List (ℤ × ℤ) :=
  if right - left ≤ (T : ℤ) ∨ depth ≥ D then pivotRangesSeq f left right
  else
    let f1 := medianOfThree f left right
    let p := partitionStep f1 left right
    (left, right) ::
      (pivotRangesPar T D p.1 left (p.2 - 1) (depth + 1) ++
        pivotRangesPar T D (quicksort_parallel T D p.1 left (p.2 - 1)
          (depth + 1)) (p.2 + 1) right (depth + 1))
termination_by (right - left + 1).toNat
decreasing_by
  · have := partitionStep_idx (medianOfThree f left right) left right
      (by omega)
    omega
  · have := partitionStep_idx (medianOfThree f left right) left right
      (by omega)
    omega

/-!
## Fallible-comparator model (error propagation, C4)

The element type's comparator may throw (`T`'s `operator<` /
`operator<=` in the template).  `bad a b = true` models "comparing `a`
with `b` throws".  Each computation returns the array state reached
when the frame exits (C++ mutates in place, so partial mutations
survive an exception) together with error information:

* `quicksort_seqF` returns `(state, err)`: `err = true` iff an
  exception propagates out of the call.  A thrown exception aborts the
  remaining work of the frame and propagates (C++ stack unwinding).
* `quicksort_parallelF` returns `(state, reported, occurred)`.
  `occurred` records whether any comparator call anywhere in the
  execution threw.  `reported` records whether an exception propagates
  to the caller.  In the fork branch the code runs the left half in a
  `std::async(std::launch::async, ...)` task and joins it with
  `left_future.wait()` (line 95).  `std::future::wait` only blocks; it
  does not rethrow a stored exception (only `get` does), and the
  future's destructor discards it.  Hence an exception raised inside
  the spawned left branch is *not* re-raised in the parent:
  `reported` of the fork branch is the right (inline) branch's
  `reported` alone.  An exception in the inline right branch unwinds
  the frame; `left_future`'s destructor still joins the spawned task
  (`std::async` futures block on destruction), so the sibling is
  joined on every exit path.  The left branch runs first in this
  sequentialised model; the two branches touch the disjoint windows
  `[left, i-1]` and `[i+1, right]`, so the interleaving does not
  affect the final state.
-/

/-- Median-of-three with a fallible comparator: the three `<`
comparisons in source order, each preceded by its failure check. -/
def medianOfThreeF (bad : α → α → Bool) (f : ℤ → α) (left right : ℤ) :
    (ℤ → α) × Bool :=
  let mid := left + (right - left) / 2
  if bad (f mid) (f left) then (f, true) else
  let f1 := if f mid < f left then swap f left mid else f
  if bad (f1 right) (f1 left) then (f1, true) else
  let f2 := if f1 right < f1 left then swap f1 left right else f1
  if bad (f2 mid) (f2 right) then (f2, true) else
  ((if f2 mid < f2 right then swap f2 mid right else f2), false)

/-- The partition scan with a fallible comparator: the comparison
`arr[j] <= pivot` may throw, aborting the loop with the state reached
so far. -/
def partitionLoopF (bad : α → α → Bool) (f : ℤ → α) (pivot : α)
    (i j right : ℤ) : ((ℤ → α) × ℤ) × Bool :=
  if h : j < right then
    if bad (f j) pivot then ((f, i), true)
    else if f j ≤ pivot then
      partitionLoopF bad (swap f (i + 1) j) pivot (i + 1) (j + 1) right
    else
      partitionLoopF bad f pivot i (j + 1) right
  else
    ((f, i), false)
termination_by (right - j).toNat
decreasing_by all_goals omega

/-- The partition step with a fallible comparator. -/
def partitionStepF (bad : α → α → Bool) (f : ℤ → α) (left right : ℤ) :
    ((ℤ → α) × ℤ) × Bool :=
  let pivot := f right
  let p := partitionLoopF bad f pivot (left - 1) left right
  if p.2 then p
  else ((swap p.1.1 (p.1.2 + 1) right, p.1.2 + 1), false)

theorem partitionLoopF_idx (bad : α → α → Bool) (pivot : α)
    (f : ℤ → α) (i j right : ℤ) :
    i < j → j ≤ right →
      i ≤ (partitionLoopF bad f pivot i j right).1.2 ∧
      (partitionLoopF bad f pivot i j right).1.2 < right := by
  induction f, pivot, i, j, right using partitionLoopF.induct bad with
  | case1 f pivot i j right h hbad =>
    intro hij hjr
    rw [partitionLoopF, dif_pos h, if_pos hbad]
    dsimp only
    omega
  | case2 f pivot i j right h hbad hle ih =>
    intro hij hjr
    rw [partitionLoopF, dif_pos h, if_neg hbad, if_pos hle]
    have := ih (by omega) (by omega)
    omega
  | case3 f pivot i j right h hbad hle ih =>
    intro hij hjr
    rw [partitionLoopF, dif_pos h, if_neg hbad, if_neg hle]
    have := ih (by omega) (by omega)
    omega
  | case4 f pivot i j right h =>
    intro hij hjr
    rw [partitionLoopF, dif_neg h]
    dsimp only
    omega

theorem partitionStepF_idx (bad : α → α → Bool) (f : ℤ → α)
    (left right : ℤ) (h : left ≤ right)
    (herr : (partitionStepF bad f left right).2 = false) :
    left ≤ (partitionStepF bad f left right).1.2 ∧
      (partitionStepF bad f left right).1.2 ≤ right := by
  have hidx := partitionLoopF_idx bad (f right) f (left - 1) left right
    (by omega) h
  revert herr
  simp only [partitionStepF]
  split
  · intro herr
    next hp =>
    rw [hp] at herr
    exact absurd herr (by simp)
  · intro herr
    simpa using hidx

/-- `quicksort_seq` with a fallible comparator: an exception unwinds
the frame (remaining recursive calls are skipped) and propagates. -/
def quicksort_seqF (bad : α → α → Bool) (f : ℤ → α)
    (left right : ℤ) : (ℤ → α) × Bool :=
  if left ≥ right then (f, false)
  else
    let m := medianOfThreeF bad f left right
    if m.2 then m
    else
      let p := partitionStepF bad m.1 left right
      if hp : p.2 then (p.1.1, true)
      else
        let s1 := quicksort_seqF bad p.1.1 left (p.1.2 - 1)
        if s1.2 then s1
        else quicksort_seqF bad s1.1 (p.1.2 + 1) right
termination_by (right - left + 1).toNat
decreasing_by
  · have := partitionStepF_idx bad (medianOfThreeF bad f left right).1
      left right (by omega) (by simpa using hp)
    omega
  · have := partitionStepF_idx bad (medianOfThreeF bad f left right).1
      left right (by omega) (by simpa using hp)
    omega

/-- `quicksort_parallel` with a fallible comparator, returning
`(state, reported, occurred)` as documented above: `reported` of the
fork branch drops the spawned left branch's error because
`left_future.wait()` does not rethrow. -/
def quicksort_parallelF (bad : α → α → Bool) (T D : ℕ) (f : ℤ → α)
    (left right : ℤ) (depth : ℕ) : (ℤ → α) × Bool × Bool :=
  if right - left ≤ (T : ℤ) ∨ depth ≥ D then
    let s := quicksort_seqF bad f left right
    (s.1, s.2, s.2)
  else
    let m := medianOfThreeF bad f left right
    if m.2 then (m.1, true, true)
    else
      let p := partitionStepF bad m.1 left right
      if hp : p.2 then (p.1.1, true, true)
      else
        let sl := quicksort_parallelF bad T D p.1.1 left (p.1.2 - 1)
          (depth + 1)
        let sr := quicksort_parallelF bad T D sl.1 (p.1.2 + 1) right
          (depth + 1)
        (sr.1, sr.2.1, sl.2.2 || sr.2.2)
termination_by (right - left + 1).toNat
decreasing_by
  · have := partitionStepF_idx bad (medianOfThreeF bad f left right).1
      left right (by omega) (by simpa using hp)
    omega
  · have := partitionStepF_idx bad (medianOfThreeF bad f left right).1
      left right (by omega) (by simpa using hp)
    omega

/-- A concrete fallible comparator on `ℕ`: comparing the values `0`
and `1` (in either order) throws; every other comparison behaves like
the usual order on `ℕ`. -/
def badCmp : ℕ → ℕ → Bool :=
  fun a b => (a == 0 && b == 1) || (a == 1 && b == 0)

theorem swap_eq_comp (f : ℤ → α) (i j : ℤ) :
    swap f i j = f ∘ (Equiv.swap i j) := by
  funext k
  simp only [Function.comp_apply, Equiv.swap_apply_def, swap]
  split_ifs <;> rfl

theorem swap_fst (f : ℤ → α) (i j : ℤ) : swap f i j i = f j := by
  simp [swap]

theorem swap_snd (f : ℤ → α) (i j : ℤ) : swap f i j j = f i := by
  by_cases h : j = i
  · subst h
    simp [swap]
  · simp [swap, h]

theorem swap_other (f : ℤ → α) {i j k : ℤ} (h1 : k ≠ i) (h2 : k ≠ j) :
    swap f i j k = f k := by
  simp [swap, h1, h2]

theorem PermOf.refl (left right : ℤ) (f : ℤ → α) : PermOf left right f f :=
  ⟨Equiv.refl ℤ, fun _ _ => rfl, rfl⟩

theorem permOf_swap {left right i j : ℤ} (f : ℤ → α)
    (hi : left ≤ i ∧ i ≤ right) (hj : left ≤ j ∧ j ≤ right) :
    PermOf left right f (swap f i j) :=
  ⟨Equiv.swap i j,
   fun k hk => Equiv.swap_apply_of_ne_of_ne (by omega) (by omega),
   swap_eq_comp f i j⟩

theorem PermOf.trans {left right : ℤ} {f g h : ℤ → α}
    (h1 : PermOf left right f g) (h2 : PermOf left right g h) :
    PermOf left right f h := by
  obtain ⟨σ, hσ, rfl⟩ := h1
  obtain ⟨τ, hτ, rfl⟩ := h2
  refine ⟨τ.trans σ, fun k hk => ?_, rfl⟩
  simp only [Equiv.trans_apply, hτ k hk, hσ k hk]

theorem PermOf.mono {left right left' right' : ℤ} {f g : ℤ → α}
    (h : PermOf left right f g) (hl : left' ≤ left) (hr : right ≤ right') :
    PermOf left' right' f g := by
  obtain ⟨σ, hσ, rfl⟩ := h
  exact ⟨σ, fun k hk => hσ k (by omega), rfl⟩

/-- A window permutation changes nothing outside the window. -/
theorem PermOf.eq_outside {left right : ℤ} {f g : ℤ → α}
    (h : PermOf left right f g) :
    ∀ k, k < left ∨ right < k → g k = f k := by
  obtain ⟨σ, hσ, rfl⟩ := h
  intro k hk
  simp only [Function.comp_apply, hσ k hk]

/-- Every value inside the window after a window permutation was already
inside the window before it. -/
theorem PermOf.apply_mem {left right : ℤ} {f g : ℤ → α}
    (h : PermOf left right f g) :
    ∀ k, left ≤ k → k ≤ right →
      ∃ m, left ≤ m ∧ m ≤ right ∧ g k = f m := by
  obtain ⟨σ, hσ, rfl⟩ := h
  intro k hk1 hk2
  refine ⟨σ k, ?_, ?_, rfl⟩ <;>
  · by_contra hm
    push_neg at hm
    have h1 : σ (σ k) = σ k := by
      apply hσ
      omega
    have := σ.injective h1
    omega

/-- A permutation of the index set that fixes the complement of
`Finset.Icc left right` maps that interval onto itself. -/
theorem perm_image_Icc (σ : Equiv.Perm ℤ) (left right : ℤ)
    (hσ : ∀ k, k < left ∨ right < k → σ k = k) :
    Finset.image σ (Finset.Icc left right) = Finset.Icc left right := by
  apply Finset.eq_of_subset_of_card_le
  · intro m hm
    simp only [Finset.mem_image, Finset.mem_Icc] at hm ⊢
    obtain ⟨k, hk, rfl⟩ := hm
    by_contra hout
    push_neg at hout
    have h1 : σ (σ k) = σ k := by
      apply hσ
      omega
    have := σ.injective h1
    omega
  · rw [Finset.card_image_of_injective _ σ.injective]

/-- A window permutation preserves the multiset of window contents. -/
theorem PermOf.windowMS_eq {left right : ℤ} {f g : ℤ → α}
    (h : PermOf left right f g) :
    windowMS g left right = windowMS f left right := by
  obtain ⟨σ, hσ, rfl⟩ := h
  unfold windowMS
  have himg := perm_image_Icc σ left right hσ
  have hval : (Finset.Icc left right).val.map σ =
      (Finset.Icc left right).val := by
    have := Finset.image_val_of_injOn
      (f := (σ : ℤ → ℤ)) (s := Finset.Icc left right)
      (σ.injective.injOn)
    rw [himg] at this
    exact this.symm
  calc (Finset.Icc left right).val.map (f ∘ σ)
      = ((Finset.Icc left right).val.map σ).map f := by
        rw [Multiset.map_map]
    _ = (Finset.Icc left right).val.map f := by rw [hval]

/-- A guarded compare-and-swap inside the window is a window
permutation. -/
theorem permOf_condSwap {left right : ℤ} (f : ℤ → α) (c : Prop)
    [Decidable c] (i j : ℤ)
    (hi : left ≤ i ∧ i ≤ right) (hj : left ≤ j ∧ j ≤ right) :
    PermOf left right f (if c then swap f i j else f) := by
  split
  · exact permOf_swap f hi hj
  · exact PermOf.refl left right f

/-- Median-of-three pivot selection only permutes the window. -/
theorem medianOfThree_perm (f : ℤ → α) (left right : ℤ)
    (h : left ≤ right) :
    PermOf left right f (medianOfThree f left right) := by
  have hmid : left ≤ left + (right - left) / 2 ∧
      left + (right - left) / 2 ≤ right := by omega
  simp only [medianOfThree]
  exact ((permOf_condSwap f _ left (left + (right - left) / 2)
      ⟨le_rfl, h⟩ hmid).trans
    (permOf_condSwap _ _ left right ⟨le_rfl, h⟩ ⟨h, le_rfl⟩)).trans
    (permOf_condSwap _ _ (left + (right - left) / 2) right
      hmid ⟨h, le_rfl⟩)

/-- Loop invariant of the Lomuto partition scan: it permutes only
`[left, right-1]`, and on exit the prefix `[left, i]` holds values
`≤ pivot` while `(i, right)` holds values `> pivot`. -/
theorem partitionLoop_spec (pivot : α) (left right : ℤ)
    (f : ℤ → α) (i j : ℤ) :
    left - 1 ≤ i → i < j → j ≤ right →
    (∀ k, left ≤ k → k ≤ i → f k ≤ pivot) →
    (∀ k, i < k → k < j → pivot < f k) →
    PermOf left (right - 1) f (partitionLoop f pivot i j right).1 ∧
    (∀ k, left ≤ k → k ≤ (partitionLoop f pivot i j right).2 →
      (partitionLoop f pivot i j right).1 k ≤ pivot) ∧
    (∀ k, (partitionLoop f pivot i j right).2 < k → k < right →
      pivot < (partitionLoop f pivot i j right).1 k) := by
  induction f, pivot, i, j, right using partitionLoop.induct with
  | case1 f pivot i j right hjr' hle ih =>
    intro h1 h2 h3 h4 h5
    rw [partitionLoop, dif_pos hjr', if_pos hle]
    have hswap : ∀ k, left ≤ k → k ≤ i + 1 → swap f (i + 1) j k ≤ pivot := by
      intro k hk1 hk2
      rcases eq_or_lt_of_le hk2 with hk | hk
      · subst hk
        rw [swap_fst]
        exact hle
      · rw [swap_other f (by omega) (by omega)]
        exact h4 k hk1 (by omega)
    have hgt : ∀ k, i + 1 < k → k < j + 1 → pivot < swap f (i + 1) j k := by
      intro k hk1 hk2
      rcases eq_or_lt_of_le (show k ≤ j by omega) with hk | hk
      · subst hk
        rw [swap_snd]
        exact h5 (i + 1) (by omega) (by omega)
      · rw [swap_other f (by omega) (by omega)]
        exact h5 k (by omega) hk
    obtain ⟨ihp, ihle, ihgt⟩ :=
      ih (by omega) (by omega) (by omega) hswap hgt
    refine ⟨PermOf.trans ?_ ihp, ihle, ihgt⟩
    exact permOf_swap f ⟨by omega, by omega⟩ ⟨by omega, by omega⟩
  | case2 f pivot i j right hjr' hle ih =>
    intro h1 h2 h3 h4 h5
    rw [partitionLoop, dif_pos hjr', if_neg hle]
    have hgt : ∀ k, i < k → k < j + 1 → pivot < f k := by
      intro k hk1 hk2
      rcases eq_or_lt_of_le (show k ≤ j by omega) with hk | hk
      · subst hk
        exact lt_of_not_le hle
      · exact h5 k hk1 hk
    exact ih h1 (by omega) (by omega) h4 hgt
  | case3 f pivot i j right hjr' =>
    intro h1 h2 h3 h4 h5
    rw [partitionLoop, dif_neg hjr']
    have hj : j = right := by omega
    subst hj
    exact ⟨PermOf.refl _ _ f, h4, h5⟩

/-- Full partition-step specification (C2 backbone): the returned index
`i` is inside the range, the pivot value ends at index `i`, the cells
left of `i` hold values `≤ pivot`, the cells right of `i` hold values
`≥ pivot`, and only the window `[left, right]` is permuted. -/
theorem partitionStep_spec (f : ℤ → α) (left right : ℤ)
    (h : left ≤ right) :
    PermOf left right f (partitionStep f left right).1 ∧
    left ≤ (partitionStep f left right).2 ∧
    (partitionStep f left right).2 ≤ right ∧
    (partitionStep f left right).1 (partitionStep f left right).2
      = f right ∧
    (∀ k, left ≤ k → k ≤ (partitionStep f left right).2 - 1 →
      (partitionStep f left right).1 k ≤ f right) ∧
    (∀ k, (partitionStep f left right).2 + 1 ≤ k → k ≤ right →
      f right ≤ (partitionStep f left right).1 k) := by
  obtain ⟨hp, hle, hgt⟩ :=
    partitionLoop_spec (f right) left right f (left - 1) left
      (by omega) (by omega) h (by omega) (by omega)
  obtain ⟨hi1, hi2⟩ :=
    partitionLoop_idx (f right) f (left - 1) left right (by omega) h
  set g := (partitionLoop f (f right) (left - 1) left right).1 with hg
  set i' := (partitionLoop f (f right) (left - 1) left right).2 with hi'
  have hgr : g right = f right := hp.eq_outside right (by omega)
  have hstep1 : (partitionStep f left right).1 = swap g (i' + 1) right := rfl
  have hstep2 : (partitionStep f left right).2 = i' + 1 := rfl
  rw [hstep1, hstep2]
  refine ⟨?_, by omega, by omega, ?_, ?_, ?_⟩
  · exact (hp.mono le_rfl (by omega)).trans
      (permOf_swap g ⟨by omega, by omega⟩ ⟨h, le_rfl⟩)
  · rw [swap_fst, hgr]
  · intro k hk1 hk2
    rw [swap_other g (by omega) (by omega)]
    exact hle k hk1 (by omega)
  · intro k hk1 hk2
    rcases eq_or_lt_of_le hk2 with hk | hk
    · subst hk
      rw [swap_snd]
      exact le_of_lt (hgt (i' + 1) (by omega) (by omega))
    · rw [swap_other g (by omega) (by omega)]
      exact le_of_lt (hgt k (by omega) hk)


theorem sortedOn_of_ge (f : ℤ → α) {left right : ℤ} (h : left ≥ right) :
    SortedOn f left right := by
  intro j k h1 h2 h3
  have : j = k := by omega
  subst this
  exact le_rfl

/-- One unfolding of `quicksort_seq` past its base case. -/
theorem quicksort_seq_step (f : ℤ → α) {left right : ℤ}
    (h : ¬ left ≥ right) :
    quicksort_seq f left right =
      quicksort_seq
        (quicksort_seq
          (partitionStep (medianOfThree f left right) left right).1
          left
          ((partitionStep (medianOfThree f left right) left right).2 - 1))
        ((partitionStep (medianOfThree f left right) left right).2 + 1)
        right := by
  rw [quicksort_seq, if_neg h]

/-- One unfolding of `quicksort_parallel` past its delegation case. -/
theorem quicksort_parallel_step (T D : ℕ) (f : ℤ → α) {left right : ℤ}
    {depth : ℕ} (h : ¬ (right - left ≤ (T : ℤ) ∨ depth ≥ D)) :
    quicksort_parallel T D f left right depth =
      quicksort_parallel T D
        (quicksort_parallel T D
          (partitionStep (medianOfThree f left right) left right).1
          left
          ((partitionStep (medianOfThree f left right) left right).2 - 1)
          (depth + 1))
        ((partitionStep (medianOfThree f left right) left right).2 + 1)
        right (depth + 1) := by
  rw [quicksort_parallel, if_neg h]

/-- Assembling sortedness of `[left, right]` from a partition at `ip`
followed by recursive sorts of the two sub-windows. -/
theorem sorted_assemble {left right ip : ℤ} {g g2 g3 : ℤ → α}
    {pivotv : α}
    (hip1 : left ≤ ip) (hip2 : ip ≤ right)
    (h2 : PermOf left (ip - 1) g g2) (hs2 : SortedOn g2 left (ip - 1))
    (h3 : PermOf (ip + 1) right g2 g3) (hs3 : SortedOn g3 (ip + 1) right)
    (hle : ∀ k, left ≤ k → k ≤ ip - 1 → g k ≤ pivotv)
    (hpiv : g ip = pivotv)
    (hge : ∀ k, ip + 1 ≤ k → k ≤ right → pivotv ≤ g k) :
    SortedOn g3 left right := by
  have A1 : ∀ m, left ≤ m → m ≤ ip - 1 → g3 m = g2 m := fun m h1 h2' =>
    h3.eq_outside m (Or.inl (by omega))
  have A2 : ∀ m, left ≤ m → m ≤ ip - 1 → g2 m ≤ pivotv := by
    intro m h1 h2'
    obtain ⟨m', hm1, hm2, hm3⟩ := h2.apply_mem m h1 h2'
    rw [hm3]
    exact hle m' hm1 hm2
  have A3 : g3 ip = pivotv := by
    rw [h3.eq_outside ip (Or.inl (by omega)),
      h2.eq_outside ip (Or.inr (by omega)), hpiv]
  have A4 : ∀ m, ip + 1 ≤ m → m ≤ right → pivotv ≤ g3 m := by
    intro m h1 h2'
    obtain ⟨m', hm1, hm2, hm3⟩ := h3.apply_mem m h1 h2'
    rw [hm3, h2.eq_outside m' (Or.inr (by omega))]
    exact hge m' hm1 hm2
  intro j k hj hjk hk
  rcases lt_trichotomy j ip with hj' | hj' | hj'
  · rcases lt_trichotomy k ip with hk' | hk' | hk'
    · rw [A1 j hj (by omega), A1 k (by omega) (by omega)]
      exact hs2 j k hj hjk (by omega)
    · subst hk'
      rw [A3, A1 j hj (by omega)]
      exact A2 j hj (by omega)
    · calc g3 j = g2 j := A1 j hj (by omega)
        _ ≤ pivotv := A2 j hj (by omega)
        _ ≤ g3 k := A4 k (by omega) hk
  · subst hj'
    rcases eq_or_lt_of_le hjk with hk' | hk'
    · rw [← hk']
    · rw [A3]
      exact A4 k (by omega) hk
  · exact hs3 j k (by omega) hjk hk

/-- Full correctness of the sequential engine `quicksort_seq`
(C1/C10 backbone): it permutes only the window `[left, right]` and
leaves it sorted. -/
theorem quicksort_seq_correct (f : ℤ → α) (left right : ℤ) :
    PermOf left right f (quicksort_seq f left right) ∧
    SortedOn (quicksort_seq f left right) left right := by
  suffices H : ∀ (n : ℕ) (f : ℤ → α) (left right : ℤ),
      (right - left + 1).toNat ≤ n →
      PermOf left right f (quicksort_seq f left right) ∧
      SortedOn (quicksort_seq f left right) left right by
    exact H ((right - left + 1).toNat) f left right le_rfl
  intro n
  induction n with
  | zero =>
    intro f left right hn
    have h : left ≥ right := by omega
    rw [quicksort_seq, if_pos h]
    exact ⟨PermOf.refl _ _ f, sortedOn_of_ge f h⟩
  | succ n ih =>
    intro f left right hn
    by_cases h : left ≥ right
    · rw [quicksort_seq, if_pos h]
      exact ⟨PermOf.refl _ _ f, sortedOn_of_ge f h⟩
    · rw [quicksort_seq_step f h]
      have hlr : left ≤ right := by omega
      obtain ⟨pperm, hipl, hipr, hpiv, hple, hpge⟩ :=
        partitionStep_spec (medianOfThree f left right) left right hlr
      set f1 := medianOfThree f left right with hf1
      set g := (partitionStep f1 left right).1 with hg
      set ip := (partitionStep f1 left right).2 with hip
      obtain ⟨perm2, sort2⟩ := ih g left (ip - 1) (by omega)
      set g2 := quicksort_seq g left (ip - 1) with hg2
      obtain ⟨perm3, sort3⟩ := ih g2 (ip + 1) right (by omega)
      set g3 := quicksort_seq g2 (ip + 1) right with hg3
      constructor
      · exact (((medianOfThree_perm f left right hlr).trans pperm).trans
          (perm2.mono le_rfl (by omega))).trans
          (perm3.mono (by omega) le_rfl)
      · exact sorted_assemble hipl hipr perm2 sort2 perm3 sort3
          hple hpiv hpge

/-- Full correctness of the fork-join coordinator `quicksort_parallel`:
for every configuration it permutes only the window `[left, right]` and
leaves it sorted. -/
theorem quicksort_parallel_correct (T D : ℕ) (f : ℤ → α)
    (left right : ℤ) (depth : ℕ) :
    PermOf left right f (quicksort_parallel T D f left right depth) ∧
    SortedOn (quicksort_parallel T D f left right depth) left right := by
  suffices H : ∀ (n : ℕ) (f : ℤ → α) (left right : ℤ) (depth : ℕ),
      (right - left + 1).toNat ≤ n →
      PermOf left right f (quicksort_parallel T D f left right depth) ∧
      SortedOn (quicksort_parallel T D f left right depth) left right by
    exact H ((right - left + 1).toNat) f left right depth le_rfl
  intro n
  induction n with
  | zero =>
    intro f left right depth hn
    have h : right - left ≤ (T : ℤ) ∨ depth ≥ D := by
      left
      have : (0 : ℤ) ≤ (T : ℤ) := Int.natCast_nonneg T
      omega
    rw [quicksort_parallel, if_pos h]
    exact quicksort_seq_correct f left right
  | succ n ih =>
    intro f left right depth hn
    by_cases h : right - left ≤ (T : ℤ) ∨ depth ≥ D
    · rw [quicksort_parallel, if_pos h]
      exact quicksort_seq_correct f left right
    · rw [quicksort_parallel_step T D f h]
      push_neg at h
      have hT : (0 : ℤ) ≤ (T : ℤ) := Int.natCast_nonneg T
      have hlr : left ≤ right := by omega
      obtain ⟨pperm, hipl, hipr, hpiv, hple, hpge⟩ :=
        partitionStep_spec (medianOfThree f left right) left right hlr
      set f1 := medianOfThree f left right with hf1
      set g := (partitionStep f1 left right).1 with hg
      set ip := (partitionStep f1 left right).2 with hip
      obtain ⟨perm2, sort2⟩ := ih g left (ip - 1) (depth + 1) (by omega)
      set g2 := quicksort_parallel T D g left (ip - 1) (depth + 1)
        with hg2
      obtain ⟨perm3, sort3⟩ := ih g2 (ip + 1) right (depth + 1) (by omega)
      constructor
      · exact (((medianOfThree_perm f left right hlr).trans pperm).trans
          (perm2.mono le_rfl (by omega))).trans
          (perm3.mono (by omega) le_rfl)
      · exact sorted_assemble hipl hipr perm2 sort2 perm3 sort3
          hple hpiv hpge

/-- The multiset of the first `n` cells is the window multiset of
`[0, n-1]`. -/
theorem toList_multiset (f : ℤ → α) (n : ℕ) :
    ((toList f n : List α) : Multiset α) = windowMS f 0 ((n : ℤ) - 1) := by
  have hA : (((List.range n).map (fun k : ℕ => (k : ℤ))) : Multiset ℤ) =
      (Finset.Icc (0 : ℤ) ((n : ℤ) - 1)).val := by
    have hnd1 : ((List.range n).map (fun k : ℕ => (k : ℤ))).Nodup :=
      (List.nodup_range n).map (fun a b h => Int.natCast_inj.mp h)
    refine (Multiset.Nodup.ext (Multiset.coe_nodup.mpr hnd1)
      (Finset.Icc _ _).nodup).mpr ?_
    intro a
    simp only [Multiset.mem_coe, List.mem_map, List.mem_range,
      Finset.mem_val, Finset.mem_Icc]
    constructor
    · rintro ⟨k, hk, rfl⟩
      omega
    · rintro ⟨h0, h1⟩
      exact ⟨a.toNat, by omega, by omega⟩
  calc ((toList f n : List α) : Multiset α)
      = Multiset.map (fun k : ℕ => f k)
          ((List.range n : List ℕ) : Multiset ℕ) := by
        rw [toList, Multiset.map_coe]
    _ = Multiset.map f
          (Multiset.map (fun k : ℕ => (k : ℤ))
            ((List.range n : List ℕ) : Multiset ℕ)) :=
        (Multiset.map_map f (fun k : ℕ => (k : ℤ)) _).symm
    _ = Multiset.map f (Finset.Icc (0 : ℤ) ((n : ℤ) - 1)).val := by
        rw [Multiset.map_coe, hA]
    _ = windowMS f 0 ((n : ℤ) - 1) := rfl

/-- A window permutation of `[0, n-1]` makes the read-back lists
permutations of each other. -/
theorem PermOf.toList_perm {f g : ℤ → α} {n : ℕ}
    (h : PermOf 0 ((n : ℤ) - 1) f g) :
    (toList g n).Perm (toList f n) := by
  rw [← Multiset.coe_eq_coe, toList_multiset, toList_multiset,
    h.windowMS_eq]

/-!
## Properties of the instrumented definitions
-/

/-- One unfolding of `spawnCount` past its delegation case. -/
theorem spawnCount_step (T D : ℕ) (f : ℤ → α) {left right : ℤ}
    {depth : ℕ} (h : ¬ (right - left ≤ (T : ℤ) ∨ depth ≥ D)) :
    spawnCount T D f left right depth =
      1 + spawnCount T D
          (partitionStep (medianOfThree f left right) left right).1
          left
          ((partitionStep (medianOfThree f left right) left right).2 - 1)
          (depth + 1) +
        spawnCount T D
          (quicksort_parallel T D
            (partitionStep (medianOfThree f left right) left right).1
            left
            ((partitionStep (medianOfThree f left right) left right).2
              - 1)
            (depth + 1))
          ((partitionStep (medianOfThree f left right) left right).2 + 1)
          right (depth + 1) := by
  rw [spawnCount, if_neg h]

/-- The spawn bound: a call at depth `d` spawns at most
`2 ^ (D - d) - 1` tasks in total. -/
theorem spawnCount_le (T D : ℕ) (f : ℤ → α) (left right : ℤ)
    (depth : ℕ) :
    spawnCount T D f left right depth ≤ 2 ^ (D - depth) - 1 := by
  suffices H : ∀ (n : ℕ) (f : ℤ → α) (left right : ℤ) (depth : ℕ),
      (right - left + 1).toNat ≤ n →
      spawnCount T D f left right depth ≤ 2 ^ (D - depth) - 1 by
    exact H ((right - left + 1).toNat) f left right depth le_rfl
  intro n
  induction n with
  | zero =>
    intro f left right depth hn
    rw [spawnCount, if_pos]
    · exact Nat.zero_le _
    · left
      have : (0 : ℤ) ≤ (T : ℤ) := Int.natCast_nonneg T
      omega
  | succ n ih =>
    intro f left right depth hn
    by_cases h : right - left ≤ (T : ℤ) ∨ depth ≥ D
    · rw [spawnCount, if_pos h]
      exact Nat.zero_le _
    · rw [spawnCount_step T D f h]
      push_neg at h
      have hT : (0 : ℤ) ≤ (T : ℤ) := Int.natCast_nonneg T
      have hlr : left ≤ right := by omega
      have hidx := partitionStep_idx (medianOfThree f left right)
        left right hlr
      have ha := ih (partitionStep (medianOfThree f left right)
          left right).1 left
        ((partitionStep (medianOfThree f left right) left right).2 - 1)
        (depth + 1) (by omega)
      have hb := ih (quicksort_parallel T D
          (partitionStep (medianOfThree f left right) left right).1
          left
          ((partitionStep (medianOfThree f left right) left right).2 - 1)
          (depth + 1))
        ((partitionStep (medianOfThree f left right) left right).2 + 1)
        right (depth + 1) (by omega)
      have hx : 2 ^ (D - depth) = 2 * 2 ^ (D - (depth + 1)) := by
        have hd : D - depth = (D - (depth + 1)) + 1 := by omega
        rw [hd, pow_succ]
        ring
      have h1 : 1 ≤ 2 ^ (D - (depth + 1)) := Nat.one_le_two_pow
      omega

/-- One unfolding of `pivotRangesSeq` past its base case. -/
theorem pivotRangesSeq_step (f : ℤ → α) {left right : ℤ}
    (h : ¬ left ≥ right) :
    pivotRangesSeq f left right =
      (left, right) ::
        (pivotRangesSeq
            (partitionStep (medianOfThree f left right) left right).1
            left
            ((partitionStep (medianOfThree f left right) left right).2
              - 1) ++
          pivotRangesSeq
            (quicksort_seq
              (partitionStep (medianOfThree f left right) left right).1
              left
              ((partitionStep (medianOfThree f left right) left
                right).2 - 1))
            ((partitionStep (medianOfThree f left right) left right).2
              + 1)
            right) := by
  rw [pivotRangesSeq, if_neg h]

/-- Every range on which the sequential engine runs pivot selection
has at least two elements (`left < right`). -/
theorem pivotRangesSeq_lt (f : ℤ → α) (left right : ℤ) :
    ∀ q ∈ pivotRangesSeq f left right, q.1 < q.2 := by
  suffices H : ∀ (n : ℕ) (f : ℤ → α) (left right : ℤ),
      (right - left + 1).toNat ≤ n →
      ∀ q ∈ pivotRangesSeq f left right, q.1 < q.2 by
    exact H ((right - left + 1).toNat) f left right le_rfl
  intro n
  induction n with
  | zero =>
    intro f left right hn
    rw [pivotRangesSeq, if_pos (by omega : left ≥ right)]
    intro q hq
    exact absurd hq (List.not_mem_nil q)
  | succ n ih =>
    intro f left right hn
    by_cases h : left ≥ right
    · rw [pivotRangesSeq, if_pos h]
      intro q hq
      exact absurd hq (List.not_mem_nil q)
    · rw [pivotRangesSeq_step f h]
      have hlr : left ≤ right := by omega
      have hidx := partitionStep_idx (medianOfThree f left right)
        left right hlr
      intro q hq
      rcases List.mem_cons.mp hq with hq | hq
      · subst hq
        omega
      · rcases List.mem_append.mp hq with hq | hq
        · exact ih _ left _ (by omega) q hq
        · exact ih _ _ right (by omega) q hq

/-- Every range on which the parallel coordinator or its delegated
sequential engine runs pivot selection has at least two elements. -/
theorem pivotRangesPar_lt (T D : ℕ) (f : ℤ → α) (left right : ℤ)
    (depth : ℕ) :
    ∀ q ∈ pivotRangesPar T D f left right depth, q.1 < q.2 := by
  suffices H : ∀ (n : ℕ) (f : ℤ → α) (left right : ℤ) (depth : ℕ),
      (right - left + 1).toNat ≤ n →
      ∀ q ∈ pivotRangesPar T D f left right depth, q.1 < q.2 by
    exact H ((right - left + 1).toNat) f left right depth le_rfl
  intro n
  induction n with
  | zero =>
    intro f left right depth hn
    rw [pivotRangesPar, if_pos]
    · exact pivotRangesSeq_lt f left right
    · left
      have : (0 : ℤ) ≤ (T : ℤ) := Int.natCast_nonneg T
      omega
  | succ n ih =>
    intro f left right depth hn
    by_cases h : right - left ≤ (T : ℤ) ∨ depth ≥ D
    · rw [pivotRangesPar, if_pos h]
      exact pivotRangesSeq_lt f left right
    · rw [pivotRangesPar, if_neg h]
      push_neg at h
      have hT : (0 : ℤ) ≤ (T : ℤ) := Int.natCast_nonneg T
      have hlr : left ≤ right := by omega
      have hidx := partitionStep_idx (medianOfThree f left right)
        left right hlr
      intro q hq
      rcases List.mem_cons.mp hq with hq | hq
      · subst hq
        dsimp only
        omega
      · rcases List.mem_append.mp hq with hq | hq
        · exact ih _ left _ (depth + 1) (by omega) q hq
        · exact ih _ _ right (depth + 1) (by omega) q hq

/-- The instrumented partition loop computes the same array and index
as the plain one. -/
theorem partitionLoopC_agree (f : ℤ → α) (pivot : α) (i j right : ℤ) :
    ∀ comps swaps,
      (partitionLoopC f pivot i j right comps swaps).1 =
        partitionLoop f pivot i j right := by
  induction f, pivot, i, j, right using partitionLoop.induct with
  | case1 f pivot i j right h hle ih =>
    intro comps swaps
    rw [partitionLoopC, dif_pos h, if_pos hle,
      partitionLoop, dif_pos h, if_pos hle]
    exact ih _ _
  | case2 f pivot i j right h hle ih =>
    intro comps swaps
    rw [partitionLoopC, dif_pos h, if_neg hle,
      partitionLoop, dif_pos h, if_neg hle]
    exact ih _ _
  | case3 f pivot i j right h =>
    intro comps swaps
    rw [partitionLoopC, dif_neg h, partitionLoop, dif_neg h]

/-- Counter behaviour of the partition scan: exactly one comparison
per loop iteration, at most one swap per iteration. -/
theorem partitionLoopC_counts (f : ℤ → α) (pivot : α)
    (i j right : ℤ) :
    j ≤ right → ∀ comps swaps,
      (partitionLoopC f pivot i j right comps swaps).2.1 =
        comps + (right - j).toNat ∧
      (partitionLoopC f pivot i j right comps swaps).2.2 ≤
        swaps + (right - j).toNat := by
  induction f, pivot, i, j, right using partitionLoop.induct with
  | case1 f pivot i j right h hle ih =>
    intro hjr comps swaps
    rw [partitionLoopC, dif_pos h, if_pos hle]
    have := ih (by omega) (comps + 1) (swaps + 1)
    omega
  | case2 f pivot i j right h hle ih =>
    intro hjr comps swaps
    rw [partitionLoopC, dif_pos h, if_neg hle]
    have := ih (by omega) (comps + 1) swaps
    omega
  | case3 f pivot i j right h =>
    intro hjr comps swaps
    rw [partitionLoopC, dif_neg h]
    dsimp only
    omega

/-- The instrumented partition step computes the same array and index
as the plain one. -/
theorem partitionStepC_agree (f : ℤ → α) (left right : ℤ) :
    (partitionStepC f left right).1 = partitionStep f left right := by
  have h := partitionLoopC_agree f (f right) (left - 1) left right 0 0
  simp only [partitionStepC, partitionStep, h]

/-- Cost of the full partition step: exactly `right - left`
comparisons against the pivot, and at most `right - left + 1` swap
invocations (the scan's swaps plus the final pivot placement). -/
theorem partitionStepC_counts (f : ℤ → α) (left right : ℤ)
    (h : left ≤ right) :
    (partitionStepC f left right).2.1 = (right - left).toNat ∧
    (partitionStepC f left right).2.2 ≤ (right - left).toNat + 1 := by
  have := partitionLoopC_counts f (f right) (left - 1) left right h 0 0
  simp only [partitionStepC]
  omega

/-!
## Claims
-/

/-- C1: for every finite sequence (array model `f`, window `[0, n-1]`),
every total-order comparator (the `LinearOrder` on `α`), and every
valid non-negative configuration `(T, D)`, the entry call
`quicksort_parallel T D f 0 (n-1) 0` leaves the window a permutation
of the input (both as an index permutation fixing everything outside
the window and as a permutation of the read-back list) that is
non-decreasing under the comparator. -/
theorem C1_entry_perm_and_sorted (T D : ℕ) (f : ℤ → α) (n : ℕ) :
    PermOf 0 ((n : ℤ) - 1) f
      (quicksort_parallel T D f 0 ((n : ℤ) - 1) 0) ∧
    (toList (quicksort_parallel T D f 0 ((n : ℤ) - 1) 0) n).Perm
      (toList f n) ∧
    SortedOn (quicksort_parallel T D f 0 ((n : ℤ) - 1) 0)
      0 ((n : ℤ) - 1) := by
  obtain ⟨hp, hs⟩ := quicksort_parallel_correct T D f 0 ((n : ℤ) - 1) 0
  exact ⟨hp, hp.toList_perm, hs⟩

/-- C2: for every range `[left, right]` with at least two elements and
the pivot value at index `right` (where pivot selection placed it),
the partition step returns an index `i` with: every element of
`[left, i-1]` is `≤` the pivot value, every element of `[i+1, right]`
is `≥` the pivot value, the pivot value itself is at index `i`, and
elements outside `[left, right]` are unchanged. -/
theorem C2_partition_invariant (f : ℤ → α) (left right : ℤ)
    (h : left < right) :
    (∀ k, left ≤ k → k ≤ (partitionStep f left right).2 - 1 →
      (partitionStep f left right).1 k ≤ f right) ∧
    (∀ k, (partitionStep f left right).2 + 1 ≤ k → k ≤ right →
      f right ≤ (partitionStep f left right).1 k) ∧
    (partitionStep f left right).1 (partitionStep f left right).2 =
      f right ∧
    (∀ k, k < left ∨ right < k →
      (partitionStep f left right).1 k = f k) := by
  obtain ⟨hp, _, _, hpiv, hle, hge⟩ := partitionStep_spec f left right h.le
  exact ⟨hle, hge, hpiv, hp.eq_outside⟩

/-- Witness for C2 at the array `[3, 1, 2]`, range `[0, 2]`. -/
theorem C2_partition_invariant_witness :
    (∀ k, (0 : ℤ) ≤ k →
      k ≤ (partitionStep (toFun [3,1,2] : ℤ → ℕ) 0 2).2 - 1 →
      (partitionStep (toFun [3,1,2] : ℤ → ℕ) 0 2).1 k ≤
        (toFun [3,1,2] : ℤ → ℕ) 2) ∧
    (∀ k, (partitionStep (toFun [3,1,2] : ℤ → ℕ) 0 2).2 + 1 ≤ k →
      k ≤ 2 →
      (toFun [3,1,2] : ℤ → ℕ) 2 ≤
        (partitionStep (toFun [3,1,2] : ℤ → ℕ) 0 2).1 k) ∧
    (partitionStep (toFun [3,1,2] : ℤ → ℕ) 0 2).1
        (partitionStep (toFun [3,1,2] : ℤ → ℕ) 0 2).2 =
      (toFun [3,1,2] : ℤ → ℕ) 2 ∧
    (∀ k, k < 0 ∨ 2 < k →
      (partitionStep (toFun [3,1,2] : ℤ → ℕ) 0 2).1 k =
        (toFun [3,1,2] : ℤ → ℕ) k) :=
  C2_partition_invariant (toFun [3,1,2]) 0 2 (by decide)

/-- C3 counterexample: with `SEQUENTIAL_THRESHOLD = 1`,
`MAX_DEPTH = 4`, range `[0, 1]` of size `2 > 1` at depth `0 < 4`, the
claim requires the coordinator to select a pivot, partition and
recurse (spawning one task); the code instead delegates the whole
range to the sequential engine (`right - left = 1 ≤ 1`), spawning
nothing. -/
theorem C3_counterexample :
    ((1 : ℤ) - 0 + 1 > ((1 : ℕ) : ℤ)) ∧ ((0 : ℕ) < 4) ∧
    spawnCount 1 4 (toFun [1,0] : ℤ → ℕ) 0 1 0 = 0 ∧
    quicksort_parallel 1 4 (toFun [1,0] : ℤ → ℕ) 0 1 0 =
      quicksort_seq (toFun [1,0] : ℤ → ℕ) 0 1 := by
  refine ⟨by norm_num, by norm_num, ?_, ?_⟩
  · rw [spawnCount]
    norm_num
  · rw [quicksort_parallel]
    norm_num

/-- C3 amended: the coordinator delegates the entire range to the
sequential engine exactly when `right - left ≤ T` (that is,
`size(range) ≤ T + 1`, not `size(range) ≤ T`) or `depth ≥ D`; in every
other case it selects a pivot, partitions, spawns one task and
recurses on both sub-ranges with `depth + 1`. -/
theorem C3_amended_delegation_rule (T D : ℕ) (f : ℤ → α)
    (left right : ℤ) (depth : ℕ) :
    (right - left ≤ (T : ℤ) ∨ depth ≥ D →
      quicksort_parallel T D f left right depth =
        quicksort_seq f left right ∧
      spawnCount T D f left right depth = 0) ∧
    (¬ (right - left ≤ (T : ℤ) ∨ depth ≥ D) →
      quicksort_parallel T D f left right depth =
        quicksort_parallel T D
          (quicksort_parallel T D
            (partitionStep (medianOfThree f left right) left right).1
            left
            ((partitionStep (medianOfThree f left right) left right).2
              - 1)
            (depth + 1))
          ((partitionStep (medianOfThree f left right) left right).2
            + 1)
          right (depth + 1) ∧
      spawnCount T D f left right depth =
        1 + spawnCount T D
            (partitionStep (medianOfThree f left right) left right).1
            left
            ((partitionStep (medianOfThree f left right) left right).2
              - 1)
            (depth + 1) +
          spawnCount T D
            (quicksort_parallel T D
              (partitionStep (medianOfThree f left right) left
                right).1
              left
              ((partitionStep (medianOfThree f left right) left
                right).2 - 1)
              (depth + 1))
            ((partitionStep (medianOfThree f left right) left right).2
              + 1)
            right (depth + 1)) := by
  constructor
  · intro h
    exact ⟨by rw [quicksort_parallel, if_pos h],
      by rw [spawnCount, if_pos h]⟩
  · intro h
    exact ⟨quicksort_parallel_step T D f h, spawnCount_step T D f h⟩

/-- Witness for C3 amended: the delegation branch at
`T = 1`, `D = 4`, range `[0, 1]`, depth 0. -/
theorem C3_amended_delegation_rule_witness :
    quicksort_parallel 1 4 (toFun [1,0] : ℤ → ℕ) 0 1 0 =
      quicksort_seq (toFun [1,0] : ℤ → ℕ) 0 1 ∧
    spawnCount 1 4 (toFun [1,0] : ℤ → ℕ) 0 1 0 = 0 :=
  (C3_amended_delegation_rule 1 4 (toFun [1,0]) 0 1 0).1 (by norm_num)

set_option maxRecDepth 8000 in
/-- C4 (code bug): with the fallible comparator `badCmp` (throws when
comparing the values 0 and 1), input `[0, 3, 1, 2]`, `T = 0`, `D = 1`,
the comparator throws inside the spawned left branch — a failure does
occur (`occurred = true`), and the sequential engine on the same input
propagates that same failure (`err = true`) — yet the parallel sort
returns normally (`reported = false`): `left_future.wait()` does not
rethrow the stored exception and the future's destructor discards it,
so the failure never surfaces to the caller, contradicting the claimed
propagation policy. -/
theorem C4_left_branch_error_swallowed :
    (quicksort_parallelF badCmp 0 1 (toFun [0,3,1,2]) 0 3 0).2.1 =
      false ∧
    (quicksort_parallelF badCmp 0 1 (toFun [0,3,1,2]) 0 3 0).2.2 =
      true ∧
    (quicksort_seqF badCmp (toFun [0,3,1,2]) 0 3).2 = true := by
  refine ⟨?_, ?_, ?_⟩ <;>
  simp [quicksort_parallelF, quicksort_seqF, medianOfThreeF,
    partitionStepF, partitionLoopF, swap, toFun, badCmp]

/-- C5: for every sequence of length `n ≤ T` the entry call delegates
immediately, so the parallel sort and the pure sequential engine
produce identical output; and for `n = 0` (range `[0, -1]`) and
`n = 1` (range `[0, 0]`) both operations leave the array unchanged. -/
theorem C5_parallel_refines_seq_small (T D : ℕ) (f : ℤ → α) (n : ℕ) :
    (n ≤ T → quicksort_parallel T D f 0 ((n : ℤ) - 1) 0 =
      quicksort_seq f 0 ((n : ℤ) - 1)) ∧
    (quicksort_parallel T D f 0 (-1) 0 = f ∧
      quicksort_seq f 0 (-1) = f) ∧
    (quicksort_parallel T D f 0 0 0 = f ∧ quicksort_seq f 0 0 = f) := by
  have hT : (0 : ℤ) ≤ (T : ℤ) := Int.natCast_nonneg T
  have hseq0 : quicksort_seq f 0 (-1) = f := by
    rw [quicksort_seq, if_pos (by norm_num)]
  have hseq1 : quicksort_seq f 0 0 = f := by
    rw [quicksort_seq, if_pos (by norm_num)]
  refine ⟨fun h => ?_, ⟨?_, hseq0⟩, ⟨?_, hseq1⟩⟩
  · rw [quicksort_parallel, if_pos]
    left
    omega
  · rw [quicksort_parallel, if_pos (Or.inl (by omega))]
    exact hseq0
  · rw [quicksort_parallel, if_pos (Or.inl (by omega))]
    exact hseq1

/-- Witness for C5: a length-2 sequence with `T = 3`. -/
theorem C5_parallel_refines_seq_small_witness :
    quicksort_parallel 3 4 (toFun [2,1] : ℤ → ℕ) 0 (((2 : ℕ) : ℤ) - 1)
        0 =
      quicksort_seq (toFun [2,1] : ℤ → ℕ) 0 (((2 : ℕ) : ℤ) - 1) :=
  (C5_parallel_refines_seq_small 3 4 (toFun [2,1]) 2).1 (by norm_num)

set_option maxRecDepth 8000 in
/-- C6 counterexample: partitioning the array `[1, 2]` on the range
`[0, 1]` (pivot value `2` already at index `right = 1`) performs
exactly `right - left = 1` comparison but `2` swap invocations (the
scan's `swap(arr[0], arr[0])` plus the final pivot placement
`swap(arr[1], arr[1])`), exceeding the claimed bound of
`right - left = 1` swaps. -/
theorem C6_counterexample :
    (partitionStepC (toFun [1,2] : ℤ → ℕ) 0 1).2.1 = 1 ∧
    (partitionStepC (toFun [1,2] : ℤ → ℕ) 0 1).2.2 = 2 ∧
    ¬ ((partitionStepC (toFun [1,2] : ℤ → ℕ) 0 1).2.2 ≤
        ((1 : ℤ) - 0).toNat) := by
  refine ⟨?_, ?_, ?_⟩ <;>
  simp [partitionStepC, partitionLoopC, swap, toFun]

/-- C6 amended: on every range with at least two elements the
partition step performs exactly `right - left` comparisons against the
pivot and at most `right - left + 1` swap invocations (the scan's
swaps plus the final pivot placement), and the instrumented step
computes the same array and pivot index as the plain one. -/
theorem C6_amended_partition_cost (f : ℤ → α) (left right : ℤ)
    (h : left < right) :
    (partitionStepC f left right).2.1 = (right - left).toNat ∧
    (partitionStepC f left right).2.2 ≤ (right - left).toNat + 1 ∧
    (partitionStepC f left right).1 = partitionStep f left right := by
  obtain ⟨h1, h2⟩ := partitionStepC_counts f left right h.le
  exact ⟨h1, h2, partitionStepC_agree f left right⟩

/-- Witness for C6 amended at the array `[1, 2]`, range `[0, 1]`. -/
theorem C6_amended_partition_cost_witness :
    (partitionStepC (toFun [1,2] : ℤ → ℕ) 0 1).2.1 =
      ((1 : ℤ) - 0).toNat ∧
    (partitionStepC (toFun [1,2] : ℤ → ℕ) 0 1).2.2 ≤
      ((1 : ℤ) - 0).toNat + 1 ∧
    (partitionStepC (toFun [1,2] : ℤ → ℕ) 0 1).1 =
      partitionStep (toFun [1,2] : ℤ → ℕ) 0 1 :=
  C6_amended_partition_cost (toFun [1,2]) 0 1 (by decide)

set_option maxRecDepth 8000 in
/-- C7 counterexample: on input `[2, 1]` the sequential engine runs
median-of-three pivot selection on the range `(0, 1)`, whose length
satisfies `right - left = 1 < 2`: pivot selection is not restricted to
ranges with `right - left ≥ 2`. -/
theorem C7_counterexample :
    ((0 : ℤ), (1 : ℤ)) ∈ pivotRangesSeq (toFun [2,1] : ℤ → ℕ) 0 1 ∧
    ¬ ((1 : ℤ) - 0 ≥ 2) := by
  constructor
  · have h : pivotRangesSeq (toFun [2,1] : ℤ → ℕ) 0 1 = [(0, 1)] := by
      simp [pivotRangesSeq, quicksort_seq, partitionStep, partitionLoop,
        medianOfThree, swap, toFun]
    rw [h]
    exact List.mem_singleton.mpr rfl
  · norm_num

/-- C7 amended: pivot selection runs exactly on the calls whose range
has at least two elements (`left < right`, i.e. `right - left ≥ 1`),
in both the sequential engine and the parallel coordinator; every
range with at most one element returns immediately through the
recursive base case, skipping pivot selection. -/
theorem C7_amended_pivot_ranges (T D : ℕ) (f : ℤ → α)
    (left right : ℤ) (depth : ℕ) :
    (∀ q ∈ pivotRangesSeq f left right, q.1 < q.2) ∧
    (∀ q ∈ pivotRangesPar T D f left right depth, q.1 < q.2) ∧
    (left ≥ right →
      quicksort_seq f left right = f ∧
      pivotRangesSeq f left right = []) ∧
    (¬ left ≥ right → (left, right) ∈ pivotRangesSeq f left right) := by
  refine ⟨pivotRangesSeq_lt f left right,
    pivotRangesPar_lt T D f left right depth,
    fun h => ⟨?_, ?_⟩, fun h => ?_⟩
  · rw [quicksort_seq, if_pos h]
  · rw [pivotRangesSeq, if_pos h]
  · rw [pivotRangesSeq_step f h]
    exact List.mem_cons_self _ _

/-- Witness for C7 amended: the base case at range `[1, 0]` and the
pivot-selection record at range `[0, 1]`, on the array `[5, 7]`. -/
theorem C7_amended_pivot_ranges_witness :
    (quicksort_seq (toFun ([5,7] : List ℕ)) 1 0 = toFun [5,7] ∧
      pivotRangesSeq (toFun ([5,7] : List ℕ)) 1 0 = []) ∧
    ((0 : ℤ), (1 : ℤ)) ∈ pivotRangesSeq (toFun ([5,7] : List ℕ)) 0 1 :=
  ⟨(C7_amended_pivot_ranges 0 4 (toFun [5,7]) 1 0 0).2.2.1 (by decide),
    (C7_amended_pivot_ranges 0 4 (toFun [5,7]) 0 1 0).2.2.2
      (by decide)⟩

set_option maxRecDepth 8000 in
/-- C8 (Scenario A): with `SEQUENTIAL_THRESHOLD = 0` and
`MAX_DEPTH = 4`, sorting `[5, 3, 8, 1, 9, 2]` over the full range
`[0, 5]` yields `[1, 2, 3, 5, 8, 9]`. -/
theorem C8_scenario_A :
    toList
      (quicksort_parallel 0 4 (toFun [5,3,8,1,9,2] : ℤ → ℕ) 0 5 0) 6 =
      [1, 2, 3, 5, 8, 9] := by
  simp [quicksort_parallel, quicksort_seq, partitionStep, partitionLoop,
    medianOfThree, swap, toFun, toList, List.range_succ]

/-- C9: for every input, every range, and every configuration, the
total number of tasks ever spawned by an entry call (depth 0) — which
bounds the number of concurrently live spawned tasks at any instant —
is at most `2 ^ D - 1`:  each fork increments the depth by exactly
one and forking stops once `depth ≥ D`. -/
theorem C9_spawn_bound (T D : ℕ) (f : ℤ → α) (left right : ℤ) :
    spawnCount T D f left right 0 ≤ 2 ^ D - 1 := by
  simpa using spawnCount_le T D f left right 0

/-- C10: on every non-base-case call (`left < right`) the partition
index `i` of the recursion (computed after pivot selection) satisfies
`left ≤ i ≤ right`, so both recursive sub-ranges `[left, i-1]` and
`[i+1, right]` are strictly smaller than `[left, right]` — the
recursion is well-founded (and the Lean model is accepted as total on
exactly this measure) — and every call with `left > right` returns the
array unchanged. -/
theorem C10_termination_structure (f : ℤ → α) (left right : ℤ) :
    (left < right →
      left ≤ (partitionStep (medianOfThree f left right) left right).2 ∧
      (partitionStep (medianOfThree f left right) left right).2 ≤
        right ∧
      ((partitionStep (medianOfThree f left right) left right).2 - 1) -
          left < right - left ∧
      right -
          ((partitionStep (medianOfThree f left right) left right).2 +
            1) < right - left) ∧
    (left > right → quicksort_seq f left right = f) := by
  constructor
  · intro h
    have := partitionStep_idx (medianOfThree f left right) left right
      h.le
    exact ⟨this.1, this.2, by omega, by omega⟩
  · intro h
    rw [quicksort_seq, if_pos (by omega)]

/-- Witness for C10 at the array `[2, 1]`: the bounds on range
`[0, 1]` and the no-op on the inverted range `[1, 0]`. -/
theorem C10_termination_structure_witness :
    ((0 : ℤ) ≤
        (partitionStep (medianOfThree (toFun [2,1] : ℤ → ℕ) 0 1) 0
          1).2 ∧
      (partitionStep (medianOfThree (toFun [2,1] : ℤ → ℕ) 0 1) 0 1).2 ≤
        1 ∧
      ((partitionStep (medianOfThree (toFun [2,1] : ℤ → ℕ) 0 1) 0
            1).2 - 1) - 0 < 1 - 0 ∧
      (1 : ℤ) -
          ((partitionStep (medianOfThree (toFun [2,1] : ℤ → ℕ) 0 1) 0
            1).2 + 1) < 1 - 0) ∧
    quicksort_seq (toFun [2,1] : ℤ → ℕ) 1 0 = toFun [2,1] :=
  ⟨(C10_termination_structure (toFun [2,1]) 0 1).1 (by decide),
    (C10_termination_structure (toFun [2,1]) 1 0).2 (by decide)⟩

end Model
